import Mathlib

/-!
Verification of the STM32 USBv1 low level driver (`usb_lld.c`).

The development is a shallow embedding of the driver's pure computation
content.  Machine integers are modelled as `Nat` with explicit reductions
modulo `2^32` (for `size_t` / `uint32_t` fields) and `2^16` (for `uint16_t`
fields) at the points where the C code can overflow.  Packet memory (PMA) is
modelled as a list of halfword values, byte buffers as lists of byte values.

The endpoint register accessor macros (`EPR_SET_STAT_TX`, the STAT/DTOG bit
masks, ...) live in a header that is not part of the sources; they are
modelled from the spec, with the standard STM32 EPnR field layout, and each
such definition carries a doc comment saying so.
-/

namespace USBv1

/-! ## Bit-level helper lemmas -/

theorem land_lor_distrib_right (a b c : Nat) :
    (a ||| b) &&& c = (a &&& c) ||| (b &&& c) := by
  apply Nat.eq_of_testBit_eq
  intro i
  simp only [Nat.testBit_land, Nat.testBit_lor]
  cases a.testBit i <;> cases b.testBit i <;> cases c.testBit i <;> rfl

theorem testBit_ge_false {x k i : Nat} (hx : x < 2 ^ k) (hk : k ≤ i) :
    x.testBit i = false :=
  Nat.testBit_lt_two_pow
    (Nat.lt_of_lt_of_le hx (Nat.pow_le_pow_right (by norm_num) hk))

theorem pack_low_byte (b0 b1 : Nat) (h : b0 < 256) :
    (b0 ||| (b1 <<< 8)) % 256 = b0 := by
  apply Nat.eq_of_testBit_eq
  intro i
  rw [show (256 : Nat) = 2 ^ 8 from rfl, Nat.testBit_mod_two_pow,
    Nat.testBit_lor, Nat.testBit_shiftLeft]
  by_cases hi : i < 8
  · have h8 : ¬ (i ≥ 8) := by omega
    simp [hi, h8]
  · have hb : b0.testBit i = false :=
      testBit_ge_false (show b0 < 2 ^ 8 by omega) (by omega)
    simp [hi, hb]

theorem pack_high_byte (b0 b1 : Nat) (h0 : b0 < 256) (h1 : b1 < 256) :
    ((b0 ||| (b1 <<< 8)) >>> 8) % 256 = b1 := by
  apply Nat.eq_of_testBit_eq
  intro i
  rw [show (256 : Nat) = 2 ^ 8 from rfl, Nat.testBit_mod_two_pow,
    Nat.testBit_shiftRight, Nat.testBit_lor, Nat.testBit_shiftLeft]
  have hb0 : b0.testBit (8 + i) = false :=
    testBit_ge_false (show b0 < 2 ^ 8 by omega) (by omega)
  by_cases hi : i < 8
  · have h8 : 8 + i ≥ 8 := by omega
    have h88 : 8 + i - 8 = i := by omega
    simp [hi, h8, h88, hb0]
  · have hb1 : b1.testBit i = false :=
      testBit_ge_false (show b1 < 2 ^ 8 by omega) (by omega)
    have h88 : 8 + i - 8 = i := by omega
    simp [hi, hb0, h88, hb1]

theorem land_even_mask (x : Nat) (hx : x < 4294967296) :
    x &&& 4294967294 = 2 * (x / 2) := by
  apply Nat.eq_of_testBit_eq
  intro i
  rw [Nat.testBit_land]
  match i with
  | 0 =>
    have hL : (4294967294 : Nat).testBit 0 = false := by decide
    have hR : (2 * (x / 2)).testBit 0 = false := by
      simp [Nat.testBit_zero, Nat.mul_mod_right]
    simp [hL, hR]
  | i + 1 =>
    have hR : (2 * (x / 2)).testBit (i + 1) = x.testBit (i + 1) := by
      rw [Nat.testBit_add_one, Nat.mul_div_cancel_left _ (by norm_num : 0 < 2),
        Nat.testBit_div_two]
    have hM : (4294967294 : Nat).testBit (i + 1) = decide (i < 31) := by
      rw [Nat.testBit_add_one]
      have : (4294967294 : Nat) / 2 = 2 ^ 31 - 1 := by norm_num
      rw [this, Nat.testBit_two_pow_sub_one]
    rw [hR, hM]
    by_cases hi : i < 31
    · simp [hi]
    · have hb : x.testBit (i + 1) = false :=
        testBit_ge_false (show x < 2 ^ 32 by omega) (by omega)
      simp [hi, hb]

/-! ## Packet memory allocator

Source: `usb_pm_reset` (lines 98-103) and `usb_pm_alloc` (lines 111-118).
The allocator state is the single `uint32_t` cursor `usbp->pmnext`; sizes are
`size_t` (32 bits on this target).
-/

/-- Embedding of `usb_pm_reset`: the cursor restarts past the 64 bytes
reserved for the descriptor table. -/
def usb_pm_reset : Nat := 64

/-- Embedding of the rounding expression `(size + 1) & ~1` on a 32-bit
`size_t` (the complement of 1 is the even 32-bit mask `0xFFFFFFFE`). -/
def pm_align (size : Nat) : Nat := (size + 1) &&& 4294967294

/-- Embedding of `usb_pm_alloc`: returns the old cursor and advances the
cursor by the size rounded up to even, in 32-bit arithmetic. -/
def usb_pm_alloc (pmnext size : Nat) : Nat × Nat :=
  (pmnext, (pmnext + pm_align size) % 4294967296)

/-- Condition of the fatal `osalDbgAssert(usbp->pmnext <= STM32_USB_PMA_SIZE,
"PMA overflow")`: the assertion fires exactly when the advanced cursor
exceeds the capacity (the capacity is a platform compile-time constant, kept
as a parameter here). -/
def usb_pm_assert_fails (capacity pmnext2 : Nat) : Bool :=
  decide (capacity < pmnext2)

/-- A sequence of `usb_pm_alloc` calls: collects the returned offsets and the
final cursor. -/
def pm_run (pmnext : Nat) : List Nat → List Nat × Nat
  | [] => ([], pmnext)
  | s :: rest =>
    let r := usb_pm_alloc pmnext s
    let t := pm_run r.2 rest
    (r.1 :: t.1, t.2)

/-- The assertion outcome of each call of a sequence of `usb_pm_alloc`
calls. -/
def pm_assert_trace (capacity pmnext : Nat) : List Nat → List Bool
  | [] => []
  | s :: rest =>
    let r := usb_pm_alloc pmnext s
    usb_pm_assert_fails capacity r.2 :: pm_assert_trace capacity r.2 rest

/-- Specification-side rounding to the next even number. -/
def roundUpEven (s : Nat) : Nat := if s % 2 = 0 then s else s + 1

theorem pm_align_eq (s : Nat) (h : s + 1 < 4294967296) :
    pm_align s = roundUpEven s := by
  unfold pm_align roundUpEven
  rw [land_even_mask _ h]
  split <;> omega

theorem roundUpEven_even (s : Nat) : roundUpEven s % 2 = 0 := by
  unfold roundUpEven
  split <;> omega

theorem sum_map_roundUpEven_even (l : List Nat) :
    (l.map roundUpEven).sum % 2 = 0 := by
  induction l with
  | nil => rfl
  | cons s rest ih =>
    have hs := roundUpEven_even s
    simp only [List.map_cons, List.sum_cons]
    omega

theorem pm_run_general (sizes : List Nat) : ∀ c capacity : Nat,
    (∀ s ∈ sizes, s + 1 < 4294967296) →
    c + (sizes.map roundUpEven).sum < 4294967296 →
    (pm_run c sizes).2 = c + (sizes.map roundUpEven).sum ∧
    (pm_run c sizes).1 = (List.range sizes.length).map
      (fun i => c + ((sizes.take i).map roundUpEven).sum) ∧
    pm_assert_trace capacity c sizes = (List.range sizes.length).map
      (fun i => decide (capacity < c + ((sizes.take (i + 1)).map roundUpEven).sum)) := by
  induction sizes with
  | nil =>
    intro c capacity h1 h2
    refine ⟨by simp [pm_run], by simp [pm_run], by simp [pm_assert_trace]⟩
  | cons s rest ih =>
    intro c capacity h1 h2
    have hs : s + 1 < 4294967296 := h1 s (List.mem_cons_self s rest)
    have hsum : c + (roundUpEven s + (rest.map roundUpEven).sum) < 4294967296 := by
      simpa [List.map_cons, List.sum_cons] using h2
    have hc : (c + pm_align s) % 4294967296 = c + roundUpEven s := by
      rw [pm_align_eq s hs]
      exact Nat.mod_eq_of_lt (by omega)
    have ihh := ih (c + roundUpEven s) capacity
      (fun s2 hs2 => h1 s2 (List.mem_cons_of_mem s hs2)) (by omega)
    refine ⟨?_, ?_, ?_⟩
    · show (pm_run ((c + pm_align s) % 4294967296) rest).2 = _
      rw [hc, ihh.1]
      simp only [List.map_cons, List.sum_cons]
      omega
    · show c :: (pm_run ((c + pm_align s) % 4294967296) rest).1 = _
      rw [hc, ihh.2.1]
      rw [List.length_cons, List.range_succ_eq_map, List.map_cons, List.map_map]
      have hfun : ((fun i => c + (((s :: rest).take i).map roundUpEven).sum) ∘ Nat.succ)
          = fun i => c + roundUpEven s + ((rest.take i).map roundUpEven).sum := by
        funext i
        simp only [Function.comp, List.take_succ_cons, List.map_cons, List.sum_cons]
        omega
      rw [hfun]
      simp
    · show usb_pm_assert_fails capacity ((c + pm_align s) % 4294967296) ::
        pm_assert_trace capacity ((c + pm_align s) % 4294967296) rest = _
      rw [hc, ihh.2.2]
      rw [List.length_cons, List.range_succ_eq_map, List.map_cons, List.map_map]
      have hfun : ((fun i =>
            decide (capacity < c + (((s :: rest).take (i + 1)).map roundUpEven).sum)) ∘ Nat.succ)
          = fun i =>
            decide (capacity < c + roundUpEven s + ((rest.take (i + 1)).map roundUpEven).sum) := by
        funext i
        simp only [Function.comp, List.take_succ_cons, List.map_cons, List.sum_cons]
        rw [decide_eq_decide]
        omega
      rw [hfun]
      simp [usb_pm_assert_fails]

/-- C5: after a reset, a sequence of `usb_pm_alloc` calls returns as offsets
exactly the successive cursor values (the reserved 64 plus the partial sums
of the even-rounded sizes), the final cursor is 64 plus the total even-rounded
sum, every returned offset is even, and the fatal assertion of call `i` fires
exactly when the cursor advanced by call `i` exceeds the packet-RAM
capacity. -/
theorem usb_pm_alloc_spec (sizes : List Nat) (capacity : Nat)
    (h1 : ∀ s ∈ sizes, s + 1 < 4294967296)
    (h2 : 64 + (sizes.map roundUpEven).sum < 4294967296) :
    (pm_run usb_pm_reset sizes).2 = 64 + (sizes.map roundUpEven).sum ∧
    (pm_run usb_pm_reset sizes).1 = (List.range sizes.length).map
      (fun i => 64 + ((sizes.take i).map roundUpEven).sum) ∧
    (∀ o ∈ (pm_run usb_pm_reset sizes).1, o % 2 = 0) ∧
    pm_assert_trace capacity usb_pm_reset sizes = (List.range sizes.length).map
      (fun i => decide (capacity < 64 + ((sizes.take (i + 1)).map roundUpEven).sum)) := by
  simp only [usb_pm_reset]
  have h := pm_run_general sizes 64 capacity h1 h2
  refine ⟨h.1, h.2.1, ?_, h.2.2⟩
  intro o ho
  rw [h.2.1] at ho
  simp only [List.mem_map, List.mem_range] at ho
  obtain ⟨i, _, rfl⟩ := ho
  have := sum_map_roundUpEven_even ((sizes.take i))
  omega

/-! ## Packet transfer engine

Source: `usb_packet_write_from_buffer` (lines 208-237) and
`usb_packet_read_to_buffer` (lines 130-152).  Packet RAM is modelled as the
list of halfword values written at `TXADDR0` / read from `RXADDR0`; a byte
buffer is a list of byte values.  The write loop packs two consecutive
source bytes into one halfword (`w = buf[i]`, then `w |= buf[i+1] << 8`) and
uses a trailing halfword holding only the low byte when the count is odd;
the read loop emits the low byte (`(uint8_t)w`) of a freshly fetched
halfword at even indices and the high byte (`(uint8_t)(w >> 8)`) at odd
indices. -/

/-- Embedding of `usb_packet_write_from_buffer`: the list of halfwords the
loop stores to packet RAM for the given source bytes. -/
def usb_packet_write_from_buffer : List Nat → List Nat
  | [] => []
  | [b] => [b]
  | b0 :: b1 :: rest => (b0 ||| (b1 <<< 8)) :: usb_packet_write_from_buffer rest

/-- Embedding of `usb_packet_read_to_buffer`: the `n` bytes the loop copies
out of the given packet-RAM halfword list (`headD 0` stands for whatever an
out-of-range PMA fetch would return; the round-trip theorem never reaches
it). -/
def usb_packet_read_to_buffer : List Nat → Nat → List Nat
  | _, 0 => []
  | pma, 1 => [pma.headD 0 % 256]
  | pma, n + 2 =>
    pma.headD 0 % 256 :: (pma.headD 0 >>> 8) % 256 ::
      usb_packet_read_to_buffer pma.tail n

/-- C6: writing any byte list through `usb_packet_write_from_buffer` and
reading the same number of bytes back through `usb_packet_read_to_buffer`
returns exactly the original bytes, for even and odd lengths alike. -/
theorem usb_packet_roundtrip (bs : List Nat) (h : ∀ b ∈ bs, b < 256) :
    usb_packet_read_to_buffer (usb_packet_write_from_buffer bs) bs.length
      = bs := by
  induction bs using usb_packet_write_from_buffer.induct with
  | case1 => rfl
  | case2 b =>
    have hb : b < 256 := h b (by simp)
    simp [usb_packet_write_from_buffer, usb_packet_read_to_buffer,
      Nat.mod_eq_of_lt hb]
  | case3 b0 b1 rest ih =>
    have hb0 : b0 < 256 := h b0 (by simp)
    have hb1 : b1 < 256 := h b1 (by simp)
    have hrest : ∀ b ∈ rest, b < 256 := fun b hb => h b (by simp [hb])
    show usb_packet_read_to_buffer
      ((b0 ||| (b1 <<< 8)) :: usb_packet_write_from_buffer rest)
      (rest.length + 2) = b0 :: b1 :: rest
    rw [usb_packet_read_to_buffer]
    simp only [List.headD_cons, List.tail_cons]
    rw [pack_low_byte b0 b1 hb0, pack_high_byte b0 b1 hb0 hb1, ih hrest]

/-! ## Endpoint register model

The endpoint register `EPR[ep]` is a 16-bit register whose fields follow
the standard STM32 EPnR layout.  The named bit patterns and the accessor
macro below live in a header that is not among the sources, so they are
modelled from the spec (which names the four per-direction protocol states
DISABLED / STALL / NAK / VALID held in the STAT_TX and STAT_RX fields of the
endpoint register). -/

/-- Modelled from the spec: mask of the `STAT_TX` (IN status) field,
bits 4-5 of the endpoint register. -/
def EPR_STAT_TX_MASK : Nat := 0x0030

/-- Modelled from the spec: the `STAT_TX` DISABLED pattern. -/
def EPR_STAT_TX_DIS : Nat := 0x0000

/-- Modelled from the spec: the `STAT_TX` STALL pattern. -/
def EPR_STAT_TX_STALL : Nat := 0x0010

/-- Modelled from the spec: the `STAT_TX` NAK pattern. -/
def EPR_STAT_TX_NAK : Nat := 0x0020

/-- Modelled from the spec: the `STAT_TX` VALID pattern. -/
def EPR_STAT_TX_VALID : Nat := 0x0030

/-- Modelled from the spec: mask of the `STAT_RX` (OUT status) field,
bits 12-13 of the endpoint register. -/
def EPR_STAT_RX_MASK : Nat := 0x3000

/-- Modelled from the spec: the `STAT_RX` DISABLED pattern. -/
def EPR_STAT_RX_DIS : Nat := 0x0000

/-- Modelled from the spec: the `STAT_RX` STALL pattern. -/
def EPR_STAT_RX_STALL : Nat := 0x1000

/-- Modelled from the spec: the `STAT_RX` NAK pattern. -/
def EPR_STAT_RX_NAK : Nat := 0x2000

/-- Modelled from the spec: the `STAT_RX` VALID pattern. -/
def EPR_STAT_RX_VALID : Nat := 0x3000

/-- Modelled from the spec: `EPR_SET_STAT_TX(ep, v)` is "the TX-status
setter" (spec sections 4.3 and 9): it stores into the `STAT_TX` field of
the endpoint register the `STAT_TX` bits of its argument and leaves every
other bit of the register unchanged. -/
def EPR_SET_STAT_TX (r v : Nat) : Nat :=
  (r &&& (0xFFFF - EPR_STAT_TX_MASK)) ||| (v &&& EPR_STAT_TX_MASK)

/-- Embedding of `usb_lld_clear_out` (lines 887-895), acting on the value
of the endpoint register: if the OUT (RX) status field is not VALID, the
register is written through `EPR_SET_STAT_TX` with the `EPR_STAT_RX_NAK`
pattern as argument (the source really does call the TX setter here);
otherwise nothing is written. -/
def usb_lld_clear_out (r : Nat) : Nat :=
  if r &&& EPR_STAT_RX_MASK ≠ EPR_STAT_RX_VALID then
    EPR_SET_STAT_TX r EPR_STAT_RX_NAK
  else r

/-- Embedding of `usb_lld_clear_in` (lines 905-913), acting on the value of
the endpoint register: if the IN (TX) status field is not VALID, the
register is written through `EPR_SET_STAT_TX` with the `EPR_STAT_TX_NAK`
pattern; otherwise nothing is written. -/
def usb_lld_clear_in (r : Nat) : Nat :=
  if r &&& EPR_STAT_TX_MASK ≠ EPR_STAT_TX_VALID then
    EPR_SET_STAT_TX r EPR_STAT_TX_NAK
  else r

/-- C8: `usb_lld_clear_in` puts the IN (TX) status field to NAK whenever
that field is not currently VALID, and leaves the endpoint register
entirely unchanged when the field is VALID. -/
theorem usb_lld_clear_in_spec (r : Nat) :
    (r &&& EPR_STAT_TX_MASK ≠ EPR_STAT_TX_VALID →
      usb_lld_clear_in r &&& EPR_STAT_TX_MASK = EPR_STAT_TX_NAK) ∧
    (r &&& EPR_STAT_TX_MASK = EPR_STAT_TX_VALID → usb_lld_clear_in r = r) := by
  constructor
  · intro h
    rw [usb_lld_clear_in, if_pos h, EPR_SET_STAT_TX]
    rw [land_lor_distrib_right, Nat.land_assoc]
    show r &&& (65487 &&& 48) ||| 32 &&& 48 &&& 48 = 32
    have e1 : (65487 &&& 48 : Nat) = 0 := by decide
    have e2 : (32 &&& 48 &&& 48 : Nat) = 32 := by decide
    rw [e1, e2]
    simp
  · intro h
    rw [usb_lld_clear_in, if_neg (by simp [h])]

/-- C8 witness: on a register whose TX status field is DISABLED, clear-in
indeed sets the TX status field to NAK. -/
theorem usb_lld_clear_in_spec_witness :
    usb_lld_clear_in 0x4100 &&& EPR_STAT_TX_MASK = EPR_STAT_TX_NAK :=
  (usb_lld_clear_in_spec 0x4100).1 (by decide)

/-- C9: `usb_lld_clear_out` never changes the OUT (RX) status field of the
endpoint register: the only write it can perform goes through the TX-status
setter, whose argument pattern contributes nothing to the RX field. -/
theorem usb_lld_clear_out_preserves_stat_rx (r : Nat) :
    usb_lld_clear_out r &&& EPR_STAT_RX_MASK = r &&& EPR_STAT_RX_MASK := by
  rw [usb_lld_clear_out]
  split
  · rw [EPR_SET_STAT_TX]
    rw [land_lor_distrib_right, Nat.land_assoc, Nat.land_assoc]
    show r &&& (65487 &&& 12288) ||| 8192 &&& (48 &&& 12288) = r &&& 12288
    have e1 : (65487 &&& 12288 : Nat) = 12288 := by decide
    have e2 : (8192 &&& (48 &&& 12288) : Nat) = 0 := by decide
    rw [e1, e2]
    simp
  · rfl

/-- C1 (code bug evidence): on a register whose OUT (RX) status field is
DISABLED (so not VALID, the branch in which the claim and the source's own
comment promise a transition of the OUT status to NAK), `usb_lld_clear_out`
leaves the OUT status field DISABLED instead of NAK, because the write is
routed through the TX-status setter; the IN (TX) status field is clobbered
to DISABLED instead. -/
theorem usb_lld_clear_out_bug :
    0x0030 &&& EPR_STAT_RX_MASK ≠ EPR_STAT_RX_VALID ∧
    usb_lld_clear_out 0x0030 &&& EPR_STAT_RX_MASK = EPR_STAT_RX_DIS ∧
    usb_lld_clear_out 0x0030 &&& EPR_STAT_RX_MASK ≠ EPR_STAT_RX_NAK ∧
    usb_lld_clear_out 0x0030 &&& EPR_STAT_TX_MASK = EPR_STAT_TX_DIS := by
  refine ⟨by decide, ?_, by decide, by decide⟩
  decide

/-! ## Event dispatcher: double-buffer count selection

Source: `STM32_USB1_LP_HANDLER`, lines 366-380 (IN direction) and 427-438
(OUT direction), plus `EPR_EP_TYPE_IS_ISO` (line 37).  The descriptor-table
entry carries the two counts of each direction (buffer 0 and buffer 1). -/

/-- Modelled from the spec: mask of the endpoint-type field of the endpoint
register. -/
def EPR_EP_TYPE_MASK : Nat := 0x0600

/-- Modelled from the spec: the isochronous endpoint-type code. -/
def EPR_EP_TYPE_ISO : Nat := 0x0400

/-- Modelled from the spec: the `DTOG_TX` hardware toggle bit. -/
def EPR_DTOG_TX : Nat := 0x0040

/-- Modelled from the spec: the `DTOG_RX` hardware toggle bit. -/
def EPR_DTOG_RX : Nat := 0x4000

/-- Modelled from the spec: mask of the count field of an RX descriptor
count word (the upper bits hold the block-size encoding). -/
def RXCOUNT_COUNT_MASK : Nat := 0x03FF

/-- Embedding of the `EPR_EP_TYPE_IS_ISO` macro (line 37 of the source). -/
def EPR_EP_TYPE_IS_ISO (epr : Nat) : Bool :=
  (epr &&& EPR_EP_TYPE_MASK) == EPR_EP_TYPE_ISO

/-- The count fields of a `stm32_usb_descriptor_t` packet-RAM descriptor
entry (addresses are kept out of the model; the transfer engine above works
on the halfword list those addresses denote). -/
structure stm32_usb_descriptor_t where
  TXCOUNT0 : Nat
  TXCOUNT1 : Nat
  RXCOUNT0 : Nat
  RXCOUNT1 : Nat
deriving DecidableEq

/-- Embedding of the transmitted-count selection (handler lines 378-380):
`TXCOUNT1` for an isochronous endpoint whose `DTOG_TX` bit is clear,
`TXCOUNT0` otherwise. -/
def isr_in_transmitted_count (epr : Nat) (d : stm32_usb_descriptor_t) : Nat :=
  if EPR_EP_TYPE_IS_ISO epr && (epr &&& EPR_DTOG_TX == 0) then d.TXCOUNT1
  else d.TXCOUNT0

/-- Embedding of the received-count selection (handler lines 436-438):
`RXCOUNT1` masked for an isochronous endpoint whose `DTOG_RX` bit is clear,
`RXCOUNT0` masked otherwise. -/
def isr_out_received_count (epr : Nat) (d : stm32_usb_descriptor_t) : Nat :=
  if EPR_EP_TYPE_IS_ISO epr && (epr &&& EPR_DTOG_RX == 0) then
    d.RXCOUNT1 &&& RXCOUNT_COUNT_MASK
  else d.RXCOUNT0 &&& RXCOUNT_COUNT_MASK

/-- The double-buffer half the hardware toggle bit marks as the one the
peripheral uses next: 0 when the toggle bit is clear, 1 when it is set. -/
def dtogTxHalf (epr : Nat) : Nat := if epr &&& EPR_DTOG_TX = 0 then 0 else 1

/-- The receive-side current half designated by `DTOG_RX`. -/
def dtogRxHalf (epr : Nat) : Nat := if epr &&& EPR_DTOG_RX = 0 then 0 else 1

/-- The transmit count stored in a given descriptor half. -/
def txCountOfHalf (d : stm32_usb_descriptor_t) (h : Nat) : Nat :=
  if h = 0 then d.TXCOUNT0 else d.TXCOUNT1

/-- The receive count stored in a given descriptor half, masked to the
count field. -/
def rxCountOfHalf (d : stm32_usb_descriptor_t) (h : Nat) : Nat :=
  if h = 0 then d.RXCOUNT0 &&& RXCOUNT_COUNT_MASK
  else d.RXCOUNT1 &&& RXCOUNT_COUNT_MASK

/-- C2: for an isochronous endpoint the dispatcher reads the completed
packet's byte count from the descriptor half other than the one the toggle
bit marks as current (IN: `TXCOUNT1` exactly when `DTOG_TX` is clear; OUT:
`RXCOUNT1` exactly when `DTOG_RX` is clear), and for a non-isochronous
endpoint it always reads the buffer-0 count. -/
theorem isr_double_buffer_counts (epr : Nat) (d : stm32_usb_descriptor_t) :
    (EPR_EP_TYPE_IS_ISO epr = true →
      isr_in_transmitted_count epr d = txCountOfHalf d (1 - dtogTxHalf epr) ∧
      isr_out_received_count epr d = rxCountOfHalf d (1 - dtogRxHalf epr)) ∧
    (EPR_EP_TYPE_IS_ISO epr = true → epr &&& EPR_DTOG_TX = 0 →
      isr_in_transmitted_count epr d = d.TXCOUNT1) ∧
    (EPR_EP_TYPE_IS_ISO epr = true → epr &&& EPR_DTOG_RX = 0 →
      isr_out_received_count epr d = d.RXCOUNT1 &&& RXCOUNT_COUNT_MASK) ∧
    (EPR_EP_TYPE_IS_ISO epr = false →
      isr_in_transmitted_count epr d = d.TXCOUNT0 ∧
      isr_out_received_count epr d = d.RXCOUNT0 &&& RXCOUNT_COUNT_MASK) := by
  refine ⟨?_, ?_, ?_, ?_⟩
  · intro hiso
    constructor
    · rw [isr_in_transmitted_count, txCountOfHalf, dtogTxHalf]
      by_cases ht : epr &&& EPR_DTOG_TX = 0
      · simp [hiso, ht]
      · simp [hiso, ht]
    · rw [isr_out_received_count, rxCountOfHalf, dtogRxHalf]
      by_cases ht : epr &&& EPR_DTOG_RX = 0
      · simp [hiso, ht]
      · simp [hiso, ht]
  · intro hiso ht
    rw [isr_in_transmitted_count]
    simp [hiso, ht]
  · intro hiso ht
    rw [isr_out_received_count]
    simp [hiso, ht]
  · intro hiso
    constructor
    · rw [isr_in_transmitted_count]
      simp [hiso]
    · rw [isr_out_received_count]
      simp [hiso]

/-- C2 witness: concrete isochronous registers with the toggle bit clear
and set, and a concrete bulk register, produce exactly the counts the
theorem describes. -/
theorem isr_double_buffer_counts_witness :
    isr_in_transmitted_count 0x0400 ⟨11, 22, 33, 44⟩ = 22 ∧
    isr_in_transmitted_count 0x0440 ⟨11, 22, 33, 44⟩ = 11 ∧
    isr_out_received_count 0x0400 ⟨11, 22, 33, 44⟩ = 44 ∧
    isr_in_transmitted_count 0x0000 ⟨11, 22, 33, 44⟩ = 11 := by
  have h1 := (isr_double_buffer_counts 0x0400 ⟨11, 22, 33, 44⟩).2.1
    (by decide) (by decide)
  have h2 := ((isr_double_buffer_counts 0x0440 ⟨11, 22, 33, 44⟩).1
    (by decide)).1
  have h3 := (isr_double_buffer_counts 0x0400 ⟨11, 22, 33, 44⟩).2.2.1
    (by decide) (by decide)
  have h4 := ((isr_double_buffer_counts 0x0000 ⟨11, 22, 33, 44⟩).2.2.2
    (by decide)).1
  refine ⟨h1, ?_, ?_, h4⟩
  · rw [h2]
    decide
  · rw [h3]
    decide

/-! ## Event dispatcher: OUT receive-complete handling

Source: handler lines 440-466 (non-setup, flat-buffer mode) and
`usb_lld_prepare_receive` (lines 772-781).  The mutable OUT transfer state
mirrors `USBOutEndpointState`; the linear buffer pointer
`out_state->mode.linear.rxbuf` is modelled as the offset `rxbufOff` from the
start of the transfer's destination buffer. -/

/-- The mutable OUT transfer state: bytes received (`size_t`), bytes still
expected (`size_t`), remaining packet count (`uint16_t`), and the linear
destination cursor. -/
structure USBOutEndpointState where
  rxcnt : Nat
  rxsize : Nat
  rxpkts : Nat
  rxbufOff : Nat
deriving DecidableEq

/-- Outcome of one OUT completion event: either the upper layer's
OUT-complete callback `_usb_isr_invoke_out_cb` is invoked, or the endpoint
is re-validated (`EPR_SET_STAT_RX(ep, EPR_STAT_RX_VALID)`) with no
callback. -/
inductive OutIsrResult where
  | out_cb
  | revalid
deriving DecidableEq

/-- Embedding of one non-setup OUT completion (handler lines 440-466) on a
flat-buffer endpoint receiving a packet of `n` bytes: the packet is copied
to the buffer at the current cursor and the cursor advanced by `n`
(`usb_packet_read_to_buffer` then `rxbuf += n`), the transaction counters
are updated in machine arithmetic (`rxcnt += n`, `rxsize -= n`,
`rxpkts -= 1`), and the callback fires exactly on a short packet or an
exhausted packet count, otherwise the endpoint is re-validated. -/
def usb_isr_out_event (out_maxsize n : Nat) (s : USBOutEndpointState) :
    USBOutEndpointState × OutIsrResult :=
  let s2 : USBOutEndpointState :=
    { rxcnt := (s.rxcnt + n) % 4294967296
      rxsize := (s.rxsize + (4294967296 - n % 4294967296)) % 4294967296
      rxpkts := (s.rxpkts + 65535) % 65536
      rxbufOff := s.rxbufOff + n }
  if n < out_maxsize ∨ s2.rxpkts = 0 then (s2, OutIsrResult.out_cb)
  else (s2, OutIsrResult.revalid)

/-- Embedding of `usb_lld_prepare_receive` (lines 772-781): the expected
packet count is 1 for a zero-sized transfer and otherwise
`(rxsize + out_maxsize - 1) / out_maxsize`, stored in a `uint16_t`. -/
def usb_lld_prepare_receive (rxsize out_maxsize : Nat) : Nat :=
  if rxsize = 0 then 1
  else (((rxsize + out_maxsize - 1) % 4294967296) / out_maxsize) % 65536

/-- Specification-side ceiling of `S / M`, written independently of the
source's `(S + M - 1) / M` idiom. -/
def ceilNat (S M : Nat) : Nat := S / M + (if S % M = 0 then 0 else 1)

theorem add_pred_div_eq_ceilNat (S M : Nat) (hM : 0 < M) (hS : 0 < S) :
    (S + M - 1) / M = ceilNat S M := by
  obtain ⟨q, r, hr_lt, rfl⟩ : ∃ q r, r < M ∧ S = M * q + r :=
    ⟨S / M, S % M, Nat.mod_lt _ hM, (Nat.div_add_mod S M).symm⟩
  have hdiv : (M * q + r) / M = q + r / M := Nat.mul_add_div hM q r
  have hmod : (M * q + r) % M = r := by
    rw [Nat.mul_add_mod, Nat.mod_eq_of_lt hr_lt]
  rcases Nat.eq_zero_or_pos r with hr | hr
  · subst hr
    have h1 : M * q + 0 + M - 1 = M * q + (M - 1) := by omega
    rw [h1, Nat.mul_add_div hM, Nat.div_eq_of_lt (show M - 1 < M by omega)]
    rw [ceilNat, hdiv, hmod]
    simp
  · have h1 : M * q + r + M - 1 = M * (q + 1) + (r - 1) := by
      have hm : M * (q + 1) = M * q + M := by ring
      omega
    rw [h1, Nat.mul_add_div hM,
      Nat.div_eq_of_lt (show r - 1 < M by omega)]
    rw [ceilNat, hdiv, hmod, if_neg (by omega),
      Nat.div_eq_of_lt hr_lt]

/-- C7: for a positive max OUT packet size, `usb_lld_prepare_receive` sets
the expected packet count to the ceiling of `S / M` when `S > 0` and to
exactly 1 when `S = 0` (side conditions keep the 32-bit sum and the 16-bit
count from wrapping, as in any real configuration). -/
theorem usb_lld_prepare_receive_spec (S M : Nat) (hM : 0 < M)
    (h32 : S + M - 1 < 4294967296) (h16 : ceilNat S M < 65536) :
    (0 < S → usb_lld_prepare_receive S M = ceilNat S M) ∧
    usb_lld_prepare_receive 0 M = 1 := by
  constructor
  · intro hS
    rw [usb_lld_prepare_receive, if_neg (by omega)]
    rw [Nat.mod_eq_of_lt h32, add_pred_div_eq_ceilNat S M hM hS,
      Nat.mod_eq_of_lt h16]
  · rw [usb_lld_prepare_receive, if_pos rfl]

/-- C7 witness: a 130-byte receive on a 64-byte endpoint expects 3 packets,
and a zero-length receive expects exactly 1. -/
theorem usb_lld_prepare_receive_spec_witness :
    usb_lld_prepare_receive 130 64 = ceilNat 130 64 ∧
    usb_lld_prepare_receive 0 64 = 1 :=
  ⟨(usb_lld_prepare_receive_spec 130 64 (by decide) (by decide)
      (by decide)).1 (by decide),
    (usb_lld_prepare_receive_spec 130 64 (by decide) (by decide)
      (by decide)).2⟩

/-- C3: a non-setup OUT completion carrying `n` bytes fires the upper
layer's OUT-complete callback exactly when `n` is short of the max OUT size
or the packet count just decremented reaches zero, and otherwise
re-validates the endpoint without a callback; in particular the single
zero-byte packet of a prepared zero-length transfer (packet count 1) fires
the callback even though no bytes are copied (the destination cursor does
not move). -/
theorem usb_isr_out_event_spec (out_maxsize n : Nat) (s : USBOutEndpointState)
    (hp : 0 < s.rxpkts) (hp16 : s.rxpkts < 65536) :
    ((usb_isr_out_event out_maxsize n s).2 = OutIsrResult.out_cb ↔
      (n < out_maxsize ∨ s.rxpkts - 1 = 0)) ∧
    ((usb_isr_out_event out_maxsize n s).2 = OutIsrResult.revalid ↔
      ¬ (n < out_maxsize ∨ s.rxpkts - 1 = 0)) ∧
    (usb_isr_out_event out_maxsize n s).1.rxpkts = s.rxpkts - 1 ∧
    (s.rxpkts = 1 →
      (usb_isr_out_event out_maxsize 0 s).2 = OutIsrResult.out_cb ∧
      (usb_isr_out_event out_maxsize 0 s).1.rxbufOff = s.rxbufOff) := by
  have hdec : (s.rxpkts + 65535) % 65536 = s.rxpkts - 1 := by omega
  refine ⟨?_, ?_, ?_, ?_⟩
  · rw [usb_isr_out_event]
    simp only [hdec]
    split
    · simp_all
    · simp_all
  · rw [usb_isr_out_event]
    simp only [hdec]
    split
    · simp_all
    · simp_all
  · rw [usb_isr_out_event]
    split <;> simp [hdec]
  · intro h1
    constructor
    · rw [usb_isr_out_event]
      simp only [hdec]
      rw [if_pos (by omega)]
    · rw [usb_isr_out_event]
      split <;> simp

/-- C3 witness: with one expected packet, a zero-byte packet on a 64-byte
endpoint completes the transaction with the callback, and with three
expected packets a full 64-byte packet re-validates instead. -/
theorem usb_isr_out_event_spec_witness :
    (usb_isr_out_event 64 0 ⟨0, 0, 1, 7⟩).2 = OutIsrResult.out_cb ∧
    (usb_isr_out_event 64 0 ⟨0, 0, 1, 7⟩).1.rxbufOff = 7 ∧
    (usb_isr_out_event 64 64 ⟨0, 130, 3, 0⟩).2 = OutIsrResult.revalid := by
  have h1 := (usb_isr_out_event_spec 64 0 ⟨0, 0, 1, 7⟩ (by decide) (by decide)).2.2.2
    (by decide)
  have h2 := ((usb_isr_out_event_spec 64 64 ⟨0, 130, 3, 0⟩ (by decide)
    (by decide)).2.1).mpr (by decide)
  exact ⟨h1.1, h1.2, h2⟩

/-! ## Event dispatcher: IN transmit-complete handling

Source: handler lines 366-416 (flat-buffer mode) and
`usb_lld_prepare_transmit` (lines 791-817).  The mutable IN transfer state
mirrors `USBInEndpointState`; the linear pointer
`in_state->mode.linear.txbuf` is modelled as the offset `txbufOff` from the
start of the transfer's source buffer. -/

/-- Two's-complement 32-bit subtraction, the value of `a - b` on `size_t`
operands. -/
def sub32 (a b : Nat) : Nat :=
  (a + (4294967296 - b % 4294967296)) % 4294967296

theorem sub32_eq (a b : Nat) (hb : b ≤ a) (ha : a < 4294967296) :
    sub32 a b = a - b := by
  rw [sub32]
  omega

/-- The mutable IN transfer state: total bytes to send, bytes sent so far
(both `size_t`), and the linear source cursor. -/
structure USBInEndpointState where
  txsize : Nat
  txcnt : Nat
  txbufOff : Nat
deriving DecidableEq

/-- Outcome of one IN completion event: either the next packet is staged —
its byte count written into the descriptor (`TXCOUNT0 = n`), its bytes
copied by `usb_packet_write_from_buffer` from the source buffer at the
given offset, and the endpoint re-validated via `usb_lld_start_in` — or the
upper layer's IN-complete callback `_usb_isr_invoke_in_cb` is invoked and
nothing further is staged. -/
inductive InIsrResult where
  | staged (count off : Nat)
  | in_cb
deriving DecidableEq

/-- Embedding of one IN completion (handler lines 366-416, flat-buffer
mode) reporting `transmitted` bytes: `txcnt += transmitted` and
`n = txsize - txcnt` in 32-bit arithmetic; if `n > 0` the next packet of
`n` capped to `in_maxsize` bytes is staged after `txbuf += transmitted`,
otherwise the callback fires. -/
def usb_isr_in_event (in_maxsize transmitted : Nat) (s : USBInEndpointState) :
    USBInEndpointState × InIsrResult :=
  if 0 < sub32 s.txsize ((s.txcnt + transmitted) % 4294967296) then
    (⟨s.txsize, (s.txcnt + transmitted) % 4294967296,
        s.txbufOff + transmitted⟩,
      InIsrResult.staged
        (if sub32 s.txsize ((s.txcnt + transmitted) % 4294967296) > in_maxsize
          then in_maxsize
          else sub32 s.txsize ((s.txcnt + transmitted) % 4294967296))
        (s.txbufOff + transmitted))
  else
    (⟨s.txsize, (s.txcnt + transmitted) % 4294967296, s.txbufOff⟩,
      InIsrResult.in_cb)

/-- Completion events of one IN transaction: the peripheral reports the
previously staged packet's byte count at each completion interrupt, and
each staged packet becomes the next report.  The fuel bounds the number of
interrupts processed. -/
def in_run (in_maxsize : Nat) : Nat → USBInEndpointState → Nat → List InIsrResult
  | 0, _, _ => []
  | fuel + 1, s, staged =>
    match usb_isr_in_event in_maxsize staged s with
    | (s2, InIsrResult.staged n off) =>
      InIsrResult.staged n off :: in_run in_maxsize fuel s2 n
    | (_, InIsrResult.in_cb) => [InIsrResult.in_cb]

/-- Embedding of `usb_lld_prepare_transmit` (lines 791-817): the size of
the first staged packet is the requested size capped to the max IN packet
size (written into `TXCOUNT0` and copied from the start of the source
buffer). -/
def usb_lld_prepare_transmit (in_maxsize txsize : Nat) : Nat :=
  if txsize > in_maxsize then in_maxsize else txsize

/-- The full event list of an IN transaction of `txsize = S`: the packet
staged by `usb_lld_prepare_transmit` at source offset 0, followed by the
events of the completion interrupts. -/
def in_transaction (S M : Nat) : List InIsrResult :=
  InIsrResult.staged (usb_lld_prepare_transmit M S) 0 ::
    in_run M (S + 1) ⟨S, 0, 0⟩ (usb_lld_prepare_transmit M S)

/-- Specification-side packet sizes of a transfer of `S` bytes with max
packet size `M`: full packets of `M` bytes and a final shorter one. -/
def chunkSizes (M S : Nat) : List Nat :=
  if _h : 0 < M ∧ 0 < S then min S M :: chunkSizes M (S - M) else []
termination_by S
decreasing_by omega

/-- Consecutive slices of a linear buffer: each length in the list is laid
out at the offset where the previous one ended. -/
def slicesFrom (off : Nat) : List Nat → List (Nat × Nat)
  | [] => []
  | n :: ns => (off, n) :: slicesFrom (off + n) ns

/-- The staged events corresponding to a list of (offset, count) slices. -/
def stagedOfSlices (l : List (Nat × Nat)) : List InIsrResult :=
  l.map (fun q => InIsrResult.staged q.2 q.1)

/-- The (offset, count) pairs of the packets staged in an event list. -/
def stagedPackets : List InIsrResult → List (Nat × Nat)
  | [] => []
  | InIsrResult.staged n off :: rest => (off, n) :: stagedPackets rest
  | InIsrResult.in_cb :: rest => stagedPackets rest

/-- Number of IN-complete callback invocations in an event list. -/
def countInCb : List InIsrResult → Nat
  | [] => 0
  | InIsrResult.in_cb :: rest => 1 + countInCb rest
  | InIsrResult.staged _ _ :: rest => countInCb rest

theorem cap_min (a b : Nat) : (if a > b then b else a) = min a b := by
  rw [Nat.min_def]
  split <;> split <;> omega

theorem usb_isr_in_event_eq (M t S c off : Nat) (hc : c + t ≤ S)
    (h32 : S < 4294967296) :
    usb_isr_in_event M t ⟨S, c, off⟩ =
      if 0 < S - (c + t) then
        (⟨S, c + t, off + t⟩,
          InIsrResult.staged (min (S - (c + t)) M) (off + t))
      else (⟨S, c + t, off⟩, InIsrResult.in_cb) := by
  have h1 : (c + t) % 4294967296 = c + t := Nat.mod_eq_of_lt (by omega)
  have h2 : sub32 S (c + t) = S - (c + t) := sub32_eq S (c + t) hc h32
  simp only [usb_isr_in_event, h1, h2, cap_min]

theorem in_run_eq (M : Nat) (hM : 0 < M) :
    ∀ fuel S c p off, 0 < p → c + p ≤ S → S < 4294967296 →
      p = min (S - c) M → S - c < fuel →
      in_run M fuel ⟨S, c, off⟩ p =
        stagedOfSlices (slicesFrom (off + p) (chunkSizes M (S - (c + p))))
          ++ [InIsrResult.in_cb] := by
  intro fuel
  induction fuel with
  | zero =>
    intro S c p off hp hcp h32 hmin hfuel
    exact (Nat.not_lt_zero _ hfuel).elim
  | succ fuel ih =>
    intro S c p off hp hcp h32 hmin hfuel
    rw [in_run, usb_isr_in_event_eq M p S c off hcp h32]
    by_cases hrem : 0 < S - (c + p)
    · rw [if_pos hrem]
      show InIsrResult.staged (min (S - (c + p)) M) (off + p) ::
        in_run M fuel ⟨S, c + p, off + p⟩ (min (S - (c + p)) M) = _
      rw [ih S (c + p) (min (S - (c + p)) M) (off + p)
        (by omega) (by omega) h32 rfl (by omega)]
      conv =>
        rhs
        rw [chunkSizes]
      rw [dif_pos ⟨hM, hrem⟩]
      show _ = InIsrResult.staged (min (S - (c + p)) M) (off + p) ::
        stagedOfSlices (slicesFrom (off + p + min (S - (c + p)) M)
          (chunkSizes M (S - (c + p) - M))) ++ [InIsrResult.in_cb]
      have harg : S - (c + p + min (S - (c + p)) M) = S - (c + p) - M := by
        omega
      rw [harg]
      rfl
    · rw [if_neg hrem]
      show [InIsrResult.in_cb] = _
      have h0 : S - (c + p) = 0 := by omega
      rw [h0]
      rw [chunkSizes]
      rw [dif_neg (by omega)]
      rfl

theorem in_transaction_eq (S M : Nat) (hS : 0 < S) (hM : 0 < M)
    (h32 : S < 4294967296) :
    in_transaction S M =
      stagedOfSlices (slicesFrom 0 (chunkSizes M S)) ++ [InIsrResult.in_cb] := by
  have hp0 : usb_lld_prepare_transmit M S = min S M := cap_min S M
  rw [in_transaction, hp0]
  rw [in_run_eq M hM (S + 1) S 0 (min S M) 0 (by omega) (by omega) h32
    (by rw [Nat.sub_zero]) (by omega)]
  conv =>
    rhs
    rw [chunkSizes]
  rw [dif_pos ⟨hM, hS⟩]
  show InIsrResult.staged (min S M) 0 ::
      (stagedOfSlices (slicesFrom (0 + min S M)
        (chunkSizes M (S - (0 + min S M)))) ++ [InIsrResult.in_cb]) =
    InIsrResult.staged (min S M) 0 ::
      (stagedOfSlices (slicesFrom (0 + min S M) (chunkSizes M (S - M)))
        ++ [InIsrResult.in_cb])
  have harg : S - (0 + min S M) = S - M := by omega
  rw [harg]

theorem chunkSizes_length (M : Nat) (hM : 0 < M) :
    ∀ S, 0 < S → (chunkSizes M S).length = (S + M - 1) / M := by
  intro S
  induction S using Nat.strong_induction_on with
  | _ S ih =>
    intro hS
    rw [chunkSizes, dif_pos ⟨hM, hS⟩, List.length_cons]
    have hsplit : S + M - 1 = (S - 1) + M := by omega
    rw [hsplit, Nat.add_div_right _ hM]
    rcases Nat.lt_or_ge (S - M) 1 with hle | hgt
    · have h0 : S - M = 0 := by omega
      rw [h0, chunkSizes, dif_neg (by omega), List.length_nil]
      have : (S - 1) / M = 0 := Nat.div_eq_of_lt (by omega)
      omega
    · rw [ih (S - M) (by omega) (by omega)]
      have hsplit2 : S - M + M - 1 = S - 1 := by omega
      rw [hsplit2]

theorem chunkSizes_sum (M : Nat) (hM : 0 < M) :
    ∀ S, (chunkSizes M S).sum = S := by
  intro S
  induction S using Nat.strong_induction_on with
  | _ S ih =>
    rcases Nat.eq_zero_or_pos S with h0 | hS
    · rw [h0, chunkSizes, dif_neg (by omega)]
      rfl
    · rw [chunkSizes, dif_pos ⟨hM, hS⟩, List.sum_cons, ih (S - M) (by omega)]
      omega

theorem chunkSizes_le (M : Nat) : ∀ S, ∀ x ∈ chunkSizes M S, x ≤ M := by
  intro S
  induction S using Nat.strong_induction_on with
  | _ S ih =>
    intro x hx
    by_cases hc : 0 < M ∧ 0 < S
    · rw [chunkSizes, dif_pos hc] at hx
      rcases List.mem_cons.mp hx with h1 | h2
      · omega
      · exact ih (S - M) (by omega) x h2
    · rw [chunkSizes, dif_neg hc] at hx
      exact absurd hx (List.not_mem_nil x)

theorem slicesFrom_map_snd : ∀ (l : List Nat) (off : Nat),
    (slicesFrom off l).map Prod.snd = l := by
  intro l
  induction l with
  | nil => intro off; rfl
  | cons n ns ih =>
    intro off
    rw [slicesFrom, List.map_cons, ih (off + n)]

theorem stagedPackets_staged_append (l : List (Nat × Nat)) :
    stagedPackets (stagedOfSlices l ++ [InIsrResult.in_cb]) = l := by
  induction l with
  | nil => rfl
  | cons q rest ih =>
    show (q.1, q.2) :: stagedPackets (stagedOfSlices rest ++ [InIsrResult.in_cb])
      = q :: rest
    rw [ih]

theorem countInCb_staged_append (l : List (Nat × Nat)) :
    countInCb (stagedOfSlices l ++ [InIsrResult.in_cb]) = 1 := by
  induction l with
  | nil => rfl
  | cons q rest ih =>
    show countInCb (stagedOfSlices rest ++ [InIsrResult.in_cb]) = 1
    exact ih

/-- C4: over one whole IN transaction of `S > 0` bytes with max packet size
`M > 0`, the IN-complete callback fires exactly once, as the last event,
after exactly `(S + M - 1) / M` (the ceiling of `S / M`) staged packets
whose sizes are each capped to `M` and add up to `S`; every completion
event before the last stages the next packet and re-validates the endpoint
instead of invoking the callback. -/
theorem usb_in_transaction_spec (S M : Nat) (hS : 0 < S) (hM : 0 < M)
    (h32 : S < 4294967296) :
    countInCb (in_transaction S M) = 1 ∧
    (in_transaction S M).getLast? = some InIsrResult.in_cb ∧
    (stagedPackets (in_transaction S M)).length = (S + M - 1) / M ∧
    ((stagedPackets (in_transaction S M)).map Prod.snd).sum = S ∧
    (∀ q ∈ stagedPackets (in_transaction S M), q.2 ≤ M) := by
  rw [in_transaction_eq S M hS hM h32]
  rw [stagedPackets_staged_append, countInCb_staged_append]
  refine ⟨rfl, List.getLast?_concat _, ?_, ?_, ?_⟩
  · rw [show (slicesFrom 0 (chunkSizes M S)).length
        = ((slicesFrom 0 (chunkSizes M S)).map Prod.snd).length
      from (List.length_map _ _).symm]
    rw [slicesFrom_map_snd]
    exact chunkSizes_length M hM S hS
  · rw [slicesFrom_map_snd]
    exact chunkSizes_sum M hM S
  · intro q hq
    have hmem : q.2 ∈ (slicesFrom 0 (chunkSizes M S)).map Prod.snd :=
      List.mem_map_of_mem Prod.snd hq
    rw [slicesFrom_map_snd] at hmem
    exact chunkSizes_le M S q.2 hmem

/-- C4 witness: a 130-byte transaction on a 64-byte IN endpoint consists of
exactly ceil(130/64) = 3 staged packets of sizes 64, 64, 2 and one final
callback. -/
theorem usb_in_transaction_spec_witness :
    countInCb (in_transaction 130 64) = 1 ∧
    (in_transaction 130 64).getLast? = some InIsrResult.in_cb ∧
    (stagedPackets (in_transaction 130 64)).length = (130 + 64 - 1) / 64 := by
  have h := usb_in_transaction_spec 130 64 (by decide) (by decide) (by decide)
  exact ⟨h.1, h.2.1, h.2.2.1⟩

theorem usb_isr_out_event_bufOff (maxsize n : Nat) (s : USBOutEndpointState) :
    (usb_isr_out_event maxsize n s).1.rxbufOff = s.rxbufOff + n := by
  rw [usb_isr_out_event]
  split <;> rfl

/-- The (offset, count) destination slices filled by the packets of one OUT
transaction whose completion interrupts carry the byte counts `ns`: each
packet is copied at the current linear cursor, which then advances by the
packet's count (handler lines 446-449); processing stops once the
OUT-complete callback has fired. -/
def out_run (maxsize : Nat) : USBOutEndpointState → List Nat → List (Nat × Nat)
  | _, [] => []
  | s, n :: ns =>
    (s.rxbufOff, n) ::
      (match (usb_isr_out_event maxsize n s).2 with
        | OutIsrResult.out_cb => []
        | OutIsrResult.revalid =>
          out_run maxsize (usb_isr_out_event maxsize n s).1 ns)

theorem out_run_slices (maxsize : Nat) :
    ∀ (ns : List Nat) (s : USBOutEndpointState),
      out_run maxsize s ns =
        slicesFrom s.rxbufOff ((out_run maxsize s ns).map Prod.snd) := by
  intro ns
  induction ns with
  | nil => intro s; rfl
  | cons n ns ih =>
    intro s
    rw [out_run]
    cases hev : (usb_isr_out_event maxsize n s).2 with
    | out_cb =>
      simp only [hev]
      rfl
    | revalid =>
      simp only [hev]
      rw [List.map_cons, slicesFrom]
      rw [show s.rxbufOff + n = (usb_isr_out_event maxsize n s).1.rxbufOff
        from (usb_isr_out_event_bufOff maxsize n s).symm]
      rw [← ih ((usb_isr_out_event maxsize n s).1)]

/-- C10: in flat-buffer mode the linear cursors advance past each handled
packet, so the packets of one transaction occupy consecutive,
non-overlapping slices of the caller's buffer starting at its beginning:
the staged IN packets of a whole transaction read from offsets that are the
running sums of the packet sizes, and the received OUT packets of any
completion sequence are written at offsets that are the running sums of the
received counts. -/
theorem usb_linear_cursor_spec (S M : Nat) (hS : 0 < S) (hM : 0 < M)
    (h32 : S < 4294967296) :
    stagedPackets (in_transaction S M) =
      slicesFrom 0 ((stagedPackets (in_transaction S M)).map Prod.snd) ∧
    (∀ (maxsize : Nat) (ns : List Nat) (s : USBOutEndpointState),
      s.rxbufOff = 0 →
      out_run maxsize s ns =
        slicesFrom 0 ((out_run maxsize s ns).map Prod.snd)) := by
  constructor
  · rw [in_transaction_eq S M hS hM h32, stagedPackets_staged_append,
      slicesFrom_map_snd]
  · intro maxsize ns s hoff
    have h := out_run_slices maxsize ns s
    rw [hoff] at h
    exact h

/-- C10 witness: the three packets of a 130-byte IN transaction on a
64-byte endpoint occupy slices (0,64), (64,64), (128,2), and an OUT
transaction receiving packets of 64, 64 and 2 bytes fills the same
consecutive slices. -/
theorem usb_linear_cursor_spec_witness :
    stagedPackets (in_transaction 130 64) =
      slicesFrom 0 ((stagedPackets (in_transaction 130 64)).map Prod.snd) ∧
    out_run 64 ⟨0, 130, 3, 0⟩ [64, 64, 2] =
      slicesFrom 0 ((out_run 64 ⟨0, 130, 3, 0⟩ [64, 64, 2]).map Prod.snd) := by
  have h := usb_linear_cursor_spec 130 64 (by decide) (by decide) (by decide)
  exact ⟨h.1, h.2 64 [64, 64, 2] ⟨0, 130, 3, 0⟩ rfl⟩

/-- C5 witness: allocating 64, 63 and 1 bytes after a reset gives the even
offsets 64, 128, 192 and final cursor 258, with no assertion failure under
a 512-byte packet RAM. -/
theorem usb_pm_alloc_spec_witness :
    (pm_run usb_pm_reset [64, 63, 1]).2 =
      64 + (([64, 63, 1] : List Nat).map roundUpEven).sum ∧
    (∀ o ∈ (pm_run usb_pm_reset [64, 63, 1]).1, o % 2 = 0) := by
  have h := usb_pm_alloc_spec [64, 63, 1] 512 (by decide) (by decide)
  exact ⟨h.1, h.2.2.1⟩

/-- C6 witness: an odd-length byte list survives the write / read
round-trip through packet RAM unchanged. -/
theorem usb_packet_roundtrip_witness :
    usb_packet_read_to_buffer
      (usb_packet_write_from_buffer [17, 250, 3]) 3 = [17, 250, 3] :=
  usb_packet_roundtrip [17, 250, 3] (by decide)

end USBv1
